import Mathlib

/-!
Shallow embedding of `haretconsole/memalias.py`: a stateful log-translation
engine that rewrites memory-trace lines, replacing raw addresses with
symbolic register names and rendering changed bit fields.

Python machine integers are arbitrary-precision; values here are `Nat`
(all parsed hex/decimal captures are non-negative), with `Int` used where
a subtraction may go negative (clock deltas).  The regular-expression
layer is abstracted into the `Line` inductive: each constructor carries
the capture groups of one of the four recognized line shapes, already
split out, plus the raw line text used for echoing.
-/

namespace Memalias

/-- Left-pad the string `s` with character `c` to minimum width `w`
(Python `"%8s"` / `"%08x"`-style padding: never truncates). -/
def padLeft (c : Char) (w : Nat) (s : String) : String :=
  String.mk (List.replicate (w - s.length) c) ++ s

/-- Decimal rendering of a natural number (Python `"%d"`). -/
def decStr (n : Nat) : String :=
  Nat.repr n

/-- Lowercase hexadecimal rendering of a natural number (Python `"%x"`). -/
def hexStr (n : Nat) : String :=
  String.mk (Nat.toDigits 16 n)

/-- Python `"%07.3f" % (time / 1000.0)` for a non-negative integer number
of milliseconds: seconds with exactly three decimal digits, zero-padded to
a minimum total width of 7.  The exact decimal value `time/1000` has three
fractional digits, so the float formatting is modelled exactly by integer
arithmetic. -/
def fmt073 (time : Nat) : String :=
  padLeft '0' 7 (decStr (time / 1000) ++ "." ++ padLeft '0' 3 (decStr (time % 1000)))

/-- Python `"%07d" % n` for a possibly negative integer: zero-padded to a
minimum total width of 7, the sign counting toward the width. -/
def fmt07d (n : Int) : String :=
  if n < 0 then "-" ++ padLeft '0' 6 (decStr n.natAbs) else padLeft '0' 7 (decStr n.natAbs)

/-- Python `int(s)` on the non-negative decimal numerals that appear in
register tables and trace captures. -/
def parseIntDec (s : String) : Option Nat :=
  if s.data.isEmpty then none
  else if s.data.all Char.isDigit then
    some (s.data.foldl (fun n c => n * 10 + (c.toNat - 48)) 0)
  else none

/-- Split a character list at every occurrence of `sep` (Python
`s.split(sep)` for a one-character separator: always at least one piece,
empty pieces kept). -/
def splitChar (sep : Char) : List Char → List (List Char)
  | [] => [[]]
  | c :: rest =>
    if c = sep then [] :: splitChar sep rest
    else
      match splitChar sep rest with
      | [] => [[c]]
      | h :: t => (c :: h) :: t

/-- Split a character list at the first occurrence of `sep` only (Python
`s.split(sep, 1)`): one piece when `sep` is absent, two pieces otherwise. -/
def splitChar1 (sep : Char) : List Char → List (List Char)
  | [] => [[]]
  | c :: rest =>
    if c = sep then [[], rest]
    else
      match splitChar1 sep rest with
      | [] => [[c]]
      | h :: t => (c :: h) :: t

/-- Python `s.split(sep)` on strings, for a one-character separator. -/
def pySplit (sep : Char) (s : String) : List String :=
  (splitChar sep s.data).map String.mk

/-- Python `s.split(sep, 1)` on strings, for a one-character separator. -/
def pySplit1 (sep : Char) (s : String) : List String :=
  (splitChar1 sep s.data).map String.mk

/-- Python `range(a, b - 1, -1)` for naturals `a`, `b`: the descending list
`a, a-1, ..., b`, empty when `a < b`. -/
def rangeDown (a b : Nat) : List Nat :=
  (List.range (a + 1 - b)).map (fun i => a - i)

/-- A raw bit-field descriptor from the register tables: an integer bit
number, or a string of comma-separated bit indices / hyphen-separated
ranges (the two dynamic shapes the Python code inspects with `type`). -/
inductive BitDesc where
  | int (b : Nat)
  | str (s : String)
deriving DecidableEq, Repr

/-- Bits denoted by one comma-token of a string descriptor: either a
hyphenated range enumerated by `range(int(first), int(second)-1, -1)` or a
single bit index; `none` models Python `int()` raising on a malformed
token. -/
def tokenBits (tok : String) : Option (List Nat) :=
  match pySplit1 '-' tok with
  | [a, b] =>
    match parseIntDec a, parseIntDec b with
    | some x, some y => some (rangeDown x y)
    | _, _ => none
  | [a] =>
    match parseIntDec a with
    | some x => some [x]
    | none => none
  | _ => none

/-- Bits accumulated over a list of comma-tokens (the `bits += ...` loop
of `parsebits`), failing when any token fails. -/
def tokensBits : List String → Option (List Nat)
  | [] => some []
  | tok :: rest => do
    let b ← tokenBits tok
    let r ← tokensBits rest
    pure (b ++ r)

/-- The mask a single descriptor resolves to: `1 << b` for an integer,
and the OR of `1 << bit` over all bits of all comma-tokens for a string. -/
def descMask : BitDesc → Option Nat
  | .int b => some (1 <<< b)
  | .str s => do
    let bits ← tokensBits (pySplit ',' s)
    pure (bits.foldl (fun m bit => m ||| (1 <<< bit)) 0)

/-- `parsebits`: normalize a list of `(descriptor, label)` pairs into
`(mask, label)` pairs; `none` models a parse failure raising. -/
def parsebits : List (BitDesc × String) → Option (List (Nat × String))
  | [] => some []
  | dv :: rest => do
    let m ← descMask dv.1
    let out ← parsebits rest
    pure ((m, dv.2) :: out)

/-- A token is written high-to-low: if it parses as a hyphenated range,
the second endpoint is at most the first. -/
def tokenDesc (tok : String) : Bool :=
  match pySplit1 '-' tok with
  | [a, b] =>
    match parseIntDec a, parseIntDec b with
    | some x, some y => y ≤ x
    | _, _ => true
  | _ => true

/-- A descriptor writes its hyphenated ranges high-to-low: every token of
a string descriptor satisfies `tokenDesc`.  Integer descriptors satisfy
this trivially. -/
def descDescending : BitDesc → Bool
  | .int _ => true
  | .str s => (pySplit ',' s).all tokenDesc

/-- Bitwise `u & ~b` of Python's arbitrary-precision integers, on `Nat`:
clear from `u` every bit set in `b`.  (`u &&& b` is a sub-mask of `u`, so
XOR-ing it away clears exactly those bits.) -/
def natAndNot (u b : Nat) : Nat :=
  u ^^^ (u &&& b)

/-- The 32 low bits all set.  Python passes `~0` (all bits) as the
catch-all field mask; `getValue` only examines bit positions `0..31`, so
within that loop `~0` and `mask32` are interchangeable. -/
def mask32 : Nat :=
  4294967295

/-- `getClock`: render the time/clock prefix of a trace line and thread
the `LastClock` global.  `time` is the decimal milliseconds capture,
`clock` the optional hex tick-counter capture, `lastClock` the state;
returns the rendered prefix and the new `lastClock`. -/
def getClock (time : Nat) (clock : Option Nat) (lastClock : Nat) : String × Nat :=
  let t := fmt073 time
  match clock with
  | none => (t, lastClock)
  | some c => (t ++ "(" ++ fmt07d ((c : Int) - (lastClock : Int)) ++ ")", c)

/-- Normalized register descriptor: name plus `(mask, label)` bit defs
(the `("regname", ((bit, "bitname"), ...))` shape of `RegsList`). -/
abbrev RegInfo := String × List (Nat × String)

/-- An active watch region: the state captured by the Python `memDisplay`
instance (`self.type`, `self.pos`, `self.name`, `self.bitdefs`). -/
structure memDisplay where
  type : String
  pos : Nat
  name : String
  bitdefs : List (Nat × String)
deriving DecidableEq, Repr

/-- `memDisplay.__init__`: an empty watch type stays empty, a non-empty
one is prefixed with a space. -/
def memDisplay.make (reginfo : RegInfo) (type : String) (pos : Nat) : memDisplay :=
  { type := if type = "" then "" else " " ++ type
    pos := pos
    name := reginfo.1
    bitdefs := reginfo.2 }

/-- One iteration of the `for i in range(32)` loop of `getValue`: the
state is `(count, outval, pos)`. -/
def getValueStep (bits val changed : Nat) (st : Nat × Nat × List Nat) (i : Nat) :
    Nat × Nat × List Nat :=
  if (1 <<< i) &&& bits != 0 then
    (st.1 + 1,
     if (1 <<< i) &&& val != 0 then st.2.1 ||| (1 <<< st.1) else st.2.1,
     if (1 <<< i) &&& changed != 0 then st.2.2 ++ [i] else st.2.2)
  else st

/-- `memDisplay.getValue`: render one changed-bits fragment.  Walk bit
positions 0..31; bits of `val` selected by `bits` are packed densely into
`outval`; positions selected by `changed` are collected for the
ignore-list, offset later by `pos*32`. -/
def memDisplay.getValue (md : memDisplay) (desc : String) (bits val changed : Nat)
    (add_il : Bool) : String :=
  let st := (List.range 32).foldl (getValueStep bits val changed)
    ((0, 0, []) : Nat × Nat × List Nat)
  if add_il then
    let ignorelist := " ".intercalate (st.2.2.map (fun i => decStr (md.pos * 32 + i)))
    " " ++ desc ++ "(" ++ ignorelist ++ ")=" ++ hexStr st.2.1
  else
    " " ++ desc ++ "=" ++ hexStr st.2.1

/-- The `for bits, desc in self.bitdefs` loop of `displayFunc`: emit a
fragment for every field whose mask meets the changed set, clearing its
bits from the running unnamed accumulator (second component). -/
def memDisplay.tableFrags (md : memDisplay) (val changed : Nat) (notfirst : Bool) :
    List (Nat × String) → Nat → List String × Nat
  | [], un => ([], un)
  | bd :: rest, un =>
    if bd.1 &&& changed != 0 then
      let r := md.tableFrags val changed notfirst rest (natAndNot un bd.1)
      (md.getValue bd.2 bd.1 val changed notfirst :: r.1, r.2)
    else md.tableFrags val changed notfirst rest un

/-- All fragments of one displayed event: the table-order fragments, then
the `"?"` catch-all when unnamed changed bits remain (Python passes `~0`
as its mask, equivalent to `mask32` over the 32-position loop). -/
def memDisplay.displayFrags (md : memDisplay) (val changed : Nat) (notfirst : Bool) :
    List String × Nat :=
  let p := md.tableFrags val changed notfirst md.bitdefs changed
  if p.2 != 0 then
    (p.1 ++ [md.getValue "?" mask32 (val &&& p.2) p.2 notfirst], p.2)
  else p

/-- `memDisplay.displayFunc`: format one memory-value event for this
watch.  Returns the printed line and the updated `LastClock`.  A zero
changed mask marks the first occurrence: the full value is substituted as
the changed set, ignore-lists are suppressed, and the register value is
shown after the name. -/
def memDisplay.displayFunc (md : memDisplay) (time : Nat) (clock : Option Nat)
    (val changed : Nat) (lastClock : Nat) : String × Nat :=
  let notfirst := changed != 0
  let changed2 := if notfirst then changed else val
  let out := String.join (md.displayFrags val changed2 notfirst).1
  let clk := getClock time clock lastClock
  if notfirst then
    (clk.1 ++ md.type ++ " " ++ padLeft ' ' 8 md.name ++ ":" ++ out, clk.2)
  else
    (clk.1 ++ md.type ++ " " ++ padLeft ' ' 8 md.name ++ "=" ++ padLeft '0' 8 (hexStr val)
      ++ ":" ++ out, clk.2)

/-- `defaultFunc`: formatting for a memory-value line with no registered
watch.  `suffix` is the raw line text after the time/clock prefix and the
`": mem "` separator (Python `m.string[e+6:]`); `print a, b` joins with a
space. -/
def defaultFunc (time : Nat) (clock : Option Nat) (suffix : String) (lastClock : Nat) :
    String × Nat :=
  let clk := getClock time clock lastClock
  (clk.1 ++ " " ++ suffix, clk.2)

/-- One parsed input line: the four recognized shapes with their capture
groups (numeric captures already parsed where the handlers parse them),
plus the unrecognized pass-through case.  `raw` is the full original line
(`m.string`); for `mem`, `suffix` is the text after the prefix used by
`defaultFunc`. -/
inductive Line where
  | mem (time : Nat) (clock : Option Nat) (vaddr : String) (val changed : Nat)
      (suffix raw : String)
  | watch (type : String) (pos : Nat) (vaddr : String) (paddr : Nat) (raw : String)
  | begin (raw : String)
  | detect (name arch : String) (raw : String)
  | other (raw : String)

/-- Association-list lookup (Python `dict.get`): first binding wins. -/
def alookup {α β : Type} [DecidableEq α] (k : α) : List (α × β) → Option β
  | [] => none
  | (a, b) :: t => if a = k then some b else alookup k t

/-- One architecture's register map: physical address to descriptor. -/
abbrev ArchInfo := List (Nat × RegInfo)

/-- The preprocessed `RegsList`: architecture key to register map.  Built
once at startup; read-only afterwards, so it is a parameter here. -/
abbrev Catalog := List (String × ArchInfo)

/-- The process-wide mutable state: `LastClock`, `VirtMap` (newest binding
first: prepending a binding models dict overwrite, since `alookup` takes
the first match), and `ArchRegs`. -/
structure PState where
  lastClock : Nat
  virtMap : List (String × memDisplay)
  archRegs : ArchInfo
deriving DecidableEq, Repr

/-- The state before any line is processed: `LastClock = 0`, empty
`VirtMap`, empty `ArchRegs`. -/
def initState : PState :=
  { lastClock := 0, virtMap := [], archRegs := [] }

/-- `procline` plus the four handlers: dispatch one parsed line, returning
the new state and the printed output lines. -/
def procline (cat : Catalog) (st : PState) : Line → PState × List String
  | .mem time clock vaddr val changed suffix _raw =>
    match alookup vaddr st.virtMap with
    | some md =>
      let r := md.displayFunc time clock val changed st.lastClock
      ({ st with lastClock := r.2 }, [r.1])
    | none =>
      let r := defaultFunc time clock suffix st.lastClock
      ({ st with lastClock := r.2 }, [r.1])
  | .watch type pos vaddr paddr raw =>
    let md :=
      match alookup paddr st.archRegs with
      | some reginfo => memDisplay.make reginfo type pos
      | none => memDisplay.make (vaddr, []) type pos
    ({ st with virtMap := (vaddr, md) :: st.virtMap }, [raw])
  | .begin raw =>
    ({ st with lastClock := 0, virtMap := [] }, [raw])
  | .detect name arch raw =>
    let ar :=
      match alookup name cat with
      | some a => a
      | none => (alookup ("ARCH:" ++ arch) cat).getD []
    ({ st with archRegs := ar }, [raw])
  | .other raw =>
    (st, [raw.trimRight])

/-- Fold `procline` over a whole input sequence, tracking the state. -/
def procLines (cat : Catalog) : PState → List Line → PState
  | st, [] => st
  | st, l :: rest => procLines cat (procline cat st l).1 rest

/-! Concrete fixtures used by counterexamples and witnesses. -/

/-- A watch with no declared fields, as `handleWatch` synthesizes for an
unknown physical address named `R`. -/
def md0 : memDisplay :=
  { type := "", pos := 0, name := "R", bitdefs := [] }

/-- A one-register architecture: `CTRL` at physical address 4096 with a
single one-bit field `EN`. -/
def archA : ArchInfo :=
  [(4096, ("CTRL", [(1, "EN")]))]

/-- A catalog holding `archA` under the machine name `M`. -/
def cat0 : Catalog :=
  [("M", archA)]

/-! Helper lemmas. -/

/-- Membership in `rangeDown x y` is exactly the closed interval
`y ≤ i ≤ x` (so the list is empty when `x < y`). -/
lemma mem_rangeDown (x y i : Nat) : i ∈ rangeDown x y ↔ y ≤ i ∧ i ≤ x := by
  simp only [rangeDown, List.mem_map, List.mem_range]
  constructor
  · rintro ⟨j, hj, rfl⟩
    omega
  · rintro ⟨h1, h2⟩
    exact ⟨x - i, by omega, by omega⟩

/-- A natural with a set bit is nonzero. -/
lemma ne_zero_of_testBit {n : Nat} {i : Nat} (h : n.testBit i = true) : n ≠ 0 := by
  intro h0
  rw [h0, Nat.zero_testBit] at h
  exact Bool.false_ne_true h

/-- Bits of `natAndNot u b`: bits of `u` with bits of `b` cleared. -/
lemma natAndNot_testBit (u b i : Nat) :
    (natAndNot u b).testBit i = (u.testBit i && !b.testBit i) := by
  simp only [natAndNot, Nat.testBit_xor, Nat.testBit_land]
  cases u.testBit i <;> cases b.testBit i <;> rfl

/-- An OR is positive as soon as its left operand is. -/
lemma lor_pos_left (a b : Nat) (h : 0 < a) : 0 < a ||| b := by
  obtain ⟨i, hi, _⟩ := Nat.exists_most_significant_bit (Nat.pos_iff_ne_zero.mp h)
  have : (a ||| b).testBit i = true := by
    rw [Nat.testBit_lor, hi, Bool.true_or]
  exact Nat.pos_of_ne_zero (ne_zero_of_testBit this)

/-- Folding OR of `1 <<< bit` over a list keeps a positive accumulator
positive. -/
lemma foldl_lor_pos_of_pos (l : List Nat) (acc : Nat) (h : 0 < acc) :
    0 < l.foldl (fun m bit => m ||| (1 <<< bit)) acc := by
  induction l generalizing acc with
  | nil => exact h
  | cons b t ih => exact ih _ (lor_pos_left acc (1 <<< b) h)

/-- Folding OR of `1 <<< bit` over a nonempty list starting from zero is
positive. -/
lemma foldl_lor_pos_of_ne_nil (l : List Nat) (h : l ≠ []) :
    0 < l.foldl (fun m bit => m ||| (1 <<< bit)) 0 := by
  match l with
  | [] => exact absurd rfl h
  | b :: t =>
    show 0 < List.foldl _ (0 ||| (1 <<< b)) t
    apply foldl_lor_pos_of_pos
    rw [Nat.zero_or, Nat.one_shiftLeft]
    exact Nat.two_pow_pos b

/-- Splitting a character list always yields at least one piece. -/
lemma splitChar_ne_nil (sep : Char) (cs : List Char) : splitChar sep cs ≠ [] := by
  induction cs with
  | nil => simp [splitChar]
  | cons c rest ih =>
    unfold splitChar
    by_cases h : c = sep
    · simp [h]
    · simp only [h, if_false]
      cases splitChar sep rest <;> simp

/-- A token that parses under the high-to-low range discipline denotes at
least one bit. -/
lemma tokenBits_ne_nil (tok : String) (bits : List Nat)
    (h : tokenBits tok = some bits) (hd : tokenDesc tok = true) :
    bits ≠ [] := by
  simp only [tokenBits] at h
  simp only [tokenDesc] at hd
  match hsp : pySplit1 '-' tok with
  | [a, b] =>
    rw [hsp] at h hd
    simp only [] at h hd
    match hx : parseIntDec a, hy : parseIntDec b with
    | some x, some y =>
      rw [hx, hy] at h hd
      simp only [] at h hd
      have hyx : y ≤ x := by simpa using hd
      have hb : bits = rangeDown x y := by simpa using h.symm
      subst hb
      have : x ∈ rangeDown x y := (mem_rangeDown x y x).mpr ⟨hyx, le_refl x⟩
      exact List.ne_nil_of_mem this
    | some x, none => rw [hx, hy] at h; simp at h
    | none, some y => rw [hx, hy] at h; simp at h
    | none, none => rw [hx, hy] at h; simp at h
  | [a] =>
    rw [hsp] at h
    simp only [] at h
    match hx : parseIntDec a with
    | some x =>
      rw [hx] at h
      have : bits = [x] := by simpa using h.symm
      simp [this]
    | none => rw [hx] at h; simp at h
  | [] => rw [hsp] at h; simp at h
  | a :: b :: c :: t => rw [hsp] at h; simp at h

/-- A string descriptor that parses with `descDescending` resolves to a
positive mask. -/
lemma descMask_pos (d : BitDesc) (m : Nat) (h : descMask d = some m)
    (hd : descDescending d = true) : 0 < m := by
  match d with
  | .int b =>
    have : m = 1 <<< b := by simpa [descMask] using h.symm
    rw [this, Nat.one_shiftLeft]
    exact Nat.two_pow_pos b
  | .str s =>
    simp only [descMask] at h
    match hts : pySplit ',' s with
    | [] => exact absurd hts (by simpa [pySplit] using splitChar_ne_nil ',' s.data)
    | tok :: toks =>
      rw [hts] at h
      simp only [descDescending] at hd
      rw [hts] at hd
      simp only [List.all_cons, Bool.and_eq_true] at hd
      simp only [tokensBits] at h
      match hb : tokenBits tok with
      | none => rw [hb] at h; simp at h
      | some b =>
        rw [hb] at h
        match hr : tokensBits toks with
        | none => rw [hr] at h; simp at h
        | some r =>
          rw [hr] at h
          have hm : m = (b ++ r).foldl (fun m bit => m ||| (1 <<< bit)) 0 := by
            simpa using h.symm
          have hbne : b ≠ [] := tokenBits_ne_nil tok b hb hd.1
          have : b ++ r ≠ [] := by
            cases b with
            | nil => exact absurd rfl hbne
            | cons x xs => simp
          rw [hm]
          exact foldl_lor_pos_of_ne_nil _ this

/-- C3: every `(descriptor, label)` pair that `parsebits` accepts yields a
non-zero mask, provided all hyphenated range tokens are written
high-to-low; the un-amended claim fails on ascending ranges (see the
counterexample). -/
theorem C3_accepted_masks_nonzero (defs : List (BitDesc × String))
    (out : List (Nat × String)) (h : parsebits defs = some out)
    (hd : ∀ dv ∈ defs, descDescending dv.1 = true) :
    ∀ ml ∈ out, 0 < ml.1 := by
  induction defs generalizing out with
  | nil =>
    have : out = [] := by simpa [parsebits] using h.symm
    simp [this]
  | cons dv rest ih =>
    unfold parsebits at h
    match hm : descMask dv.1 with
    | none => rw [hm] at h; simp at h
    | some m =>
      rw [hm] at h
      match ho : parsebits rest with
      | none => rw [ho] at h; simp at h
      | some out2 =>
        rw [ho] at h
        have hout : out = (m, dv.2) :: out2 := by simpa using h.symm
        subst hout
        intro ml hml
        rcases List.mem_cons.mp hml with h1 | h2
        · rw [h1]
          exact descMask_pos dv.1 m hm (hd dv (List.mem_cons_self dv rest))
        · exact ih out2 ho (fun x hx => hd x (List.mem_cons_of_mem dv hx)) ml h2

/-- C3 witness: the amended theorem applied to the concretely accepted
high-to-low descriptor `"7-4"`, whose mask 240 it proves positive. -/
theorem C3_accepted_masks_nonzero_witness :
    parsebits [(BitDesc.str "7-4", "a")] = some [(240, "a")] ∧ (0 : Nat) < 240 :=
  ⟨by decide,
   C3_accepted_masks_nonzero [(.str "7-4", "a")] [(240, "a")] (by decide) (by decide)
     (240, "a") (by decide)⟩

/-- C3 counterexample: the ascending range descriptor `"4-7"` is accepted
by `parsebits` (no parse failure) yet resolves to mask `0`, refuting the
claim that every accepted descriptor yields a non-zero mask. -/
theorem C3_counterexample :
    parsebits [(.str "4-7", "X")] = some [(0, "X")] := by
  decide

/-- C4: the builder maps integer descriptor `b` to mask `1 <<< b`; a
hyphenated token enumerates `int(first)` down to `int(second)-1` stepping
by `-1`, i.e. `rangeDown first second`, whose members are exactly the
closed interval `second ≤ i ≤ first`; and the three concrete examples of
the claim hold: `"7-4" ↦ 0b11110000`, `"3,1" ↦ 0b00001010`,
`5 ↦ 0b00100000`. -/
theorem C4_parsebits_examples :
    (∀ b : Nat, ∀ v : String, parsebits [(.int b, v)] = some [(1 <<< b, v)]) ∧
    (∀ x y i : Nat, i ∈ rangeDown x y ↔ y ≤ i ∧ i ≤ x) ∧
    parsebits [(.str "7-4", "a")] = some [(240, "a")] ∧
    parsebits [(.str "3,1", "b")] = some [(10, "b")] ∧
    parsebits [(.int 5, "c")] = some [(32, "c")] :=
  ⟨fun _ _ => rfl, mem_rangeDown, by decide, by decide, by decide⟩

/-- C5: the clock renderer always emits `fmt073 time` (the `%07.3f`
rendering of `time/1000`); with no clock capture the state is unchanged
and the output is exactly the time; with a clock capture the output is
`time(delta)` with the delta rendered `%07d`-style (sign included) and the
state updated; the claim's concrete sequence `0x100, 0x105, 0x10A` after a
begin event yields deltas `256, 5, 5`. -/
theorem C5_clock_renderer :
    (∀ t last : Nat, getClock t none last = (fmt073 t, last)) ∧
    (∀ t c last : Nat,
      getClock t (some c) last =
        (fmt073 t ++ "(" ++ fmt07d ((c : Int) - (last : Int)) ++ ")", c)) ∧
    getClock 100 (some 0x100) 0 = ("000.100(0000256)", 0x100) ∧
    getClock 200 (some 0x105) 0x100 = ("000.200(0000005)", 0x105) ∧
    getClock 300 (some 0x10A) 0x105 = ("000.300(0000005)", 0x10A) ∧
    getClock 100 (some 5) 261 = ("000.100(-000256)", 5) :=
  ⟨fun _ _ => rfl, fun _ _ _ => rfl, by decide, by decide, by decide, by decide⟩

/-- C1 counterexample: for a non-first event (`changed = 1 ≠ 0`) the line
omits the `=<value>` part — the opposite of the claim — while the first
occurrence (`changed = 0`) of the same value does show `=00000001`. -/
theorem C1_counterexample :
    (md0.displayFunc 0 none 1 1 0).1 = "000.000        R: ?(0)=1" ∧
    (md0.displayFunc 0 none 1 1 0).1 ≠ "000.000        R=00000001: ?(0)=1" ∧
    (md0.displayFunc 0 none 1 0 0).1 = "000.000        R=00000001: ?=1" := by
  refine ⟨by decide, ?_, by decide⟩
  decide

/-- C1 amended: the value display is the other way around — when the
changed mask is nonzero (NOT the first occurrence) the line is the clock
rendering, the watch-type suffix, the name right-justified to 8, then
directly `:` and the fragments; when the changed mask is zero (first
occurrence) the name is followed by `=<8-hex-digit value>:` and the
fragments (computed against `changed := val` with ignore-lists
suppressed). -/
theorem C1_value_position_amended (md : memDisplay) (time : Nat)
    (clock : Option Nat) (val changed lastClock : Nat) :
    (changed ≠ 0 →
      md.displayFunc time clock val changed lastClock =
        ((getClock time clock lastClock).1 ++ md.type ++ " " ++ padLeft ' ' 8 md.name
          ++ ":" ++ String.join (md.displayFrags val changed true).1,
         (getClock time clock lastClock).2)) ∧
    (changed = 0 →
      md.displayFunc time clock val changed lastClock =
        ((getClock time clock lastClock).1 ++ md.type ++ " " ++ padLeft ' ' 8 md.name
          ++ "=" ++ padLeft '0' 8 (hexStr val) ++ ":"
          ++ String.join (md.displayFrags val val false).1,
         (getClock time clock lastClock).2)) := by
  constructor
  · intro h
    have hb : (changed != 0) = true := by simpa using h
    simp [memDisplay.displayFunc, hb]
  · intro h
    subst h
    simp [memDisplay.displayFunc]

/-- C1 witness: the amended non-first-occurrence branch applied at a
concrete input. -/
theorem C1_value_position_amended_witness :
    md0.displayFunc 0 none 1 1 0 =
      ((getClock 0 none 0).1 ++ md0.type ++ " " ++ padLeft ' ' 8 md0.name ++ ":"
        ++ String.join (md0.displayFrags 1 1 true).1, (getClock 0 none 0).2) :=
  (C1_value_position_amended md0 0 none 1 1 0).1 (by decide)

/-- Bits remaining in the unnamed accumulator after the field loop: the
bits of the initial accumulator not covered by any field whose mask meets
the changed set. -/
lemma tableFrags_snd_testBit (md : memDisplay) (val changed : Nat) (nf : Bool)
    (i : Nat) :
    ∀ (l : List (Nat × String)) (un : Nat),
      ((md.tableFrags val changed nf l un).2).testBit i =
        (un.testBit i && l.all (fun bd => !bd.1.testBit i || (bd.1 &&& changed == 0))) := by
  intro l
  induction l with
  | nil => intro un; simp [memDisplay.tableFrags]
  | cons bd t ih =>
    intro un
    by_cases h : (bd.1 &&& changed != 0) = true
    · have hz : (bd.1 &&& changed == 0) = false := by
        simpa [bne] using h
      simp only [memDisplay.tableFrags, h, if_true]
      rw [ih (natAndNot un bd.1), natAndNot_testBit]
      simp [List.all_cons, hz, Bool.and_assoc]
    · have h0 : (bd.1 &&& changed != 0) = false := by
        simpa using h
      have hz : (bd.1 &&& changed == 0) = true := by
        simpa [bne] using h
      simp only [memDisplay.tableFrags, h0, Bool.false_eq_true, if_false]
      rw [ih un]
      simp [List.all_cons, hz]

/-- Under a set changed bit, the per-field skip condition collapses: a
field mask containing that bit necessarily meets the changed set. -/
lemma all_clause_eq_not_any (changed : Nat) (i : Nat)
    (hc : changed.testBit i = true) (l : List (Nat × String)) :
    l.all (fun bd => !bd.1.testBit i || (bd.1 &&& changed == 0)) =
      !l.any (fun bd => bd.1.testBit i) := by
  induction l with
  | nil => rfl
  | cons bd t ih =>
    have hcl : (!bd.1.testBit i || (bd.1 &&& changed == 0)) = !bd.1.testBit i := by
      cases htb : bd.1.testBit i with
      | false => simp
      | true =>
        have hne : bd.1 &&& changed ≠ 0 := by
          apply ne_zero_of_testBit (i := i)
          rw [Nat.testBit_land, htb, hc]
          rfl
        simp [hne]
    simp [List.all_cons, List.any_cons, hcl, ih]

/-- The loop guard `1 << i & x != 0` tests exactly bit `i` of `x`. -/
lemma shiftLeft_and_bne (x n : Nat) : ((1 <<< n) &&& x != 0) = x.testBit n := by
  rw [Nat.one_shiftLeft]
  cases h : x.testBit n with
  | true =>
    have : (2 ^ n &&& x) ≠ 0 := by
      apply ne_zero_of_testBit (i := n)
      rw [Nat.testBit_land, Nat.testBit_two_pow, h]
      simp
    simpa [bne_iff_ne] using this
  | false =>
    have : 2 ^ n &&& x = 0 := by
      apply Nat.eq_of_testBit_eq
      intro i
      rw [Nat.testBit_land, Nat.testBit_two_pow, Nat.zero_testBit]
      by_cases hni : n = i
      · subst hni; simp [h]
      · simp [hni]
    simp [this]

/-- Setting bit `n` of `val % 2^n` (when bit `n` of `val` is set) yields
`val % 2^(n+1)`. -/
lemma mod_pow_succ_lor (val n : Nat) (h : val.testBit n = true) :
    (val % 2 ^ n) ||| (1 <<< n) = val % 2 ^ (n + 1) := by
  apply Nat.eq_of_testBit_eq
  intro i
  rw [Nat.testBit_lor, Nat.testBit_mod_two_pow, Nat.testBit_mod_two_pow,
    Nat.one_shiftLeft, Nat.testBit_two_pow]
  rcases Nat.lt_trichotomy i n with hi | hi | hi
  · simp [hi, show i < n + 1 by omega, show n ≠ i by omega]
  · subst hi; simp [h]
  · simp [show ¬i < n by omega, show ¬i < n + 1 by omega, show n ≠ i by omega]

/-- When bit `n` of `val` is clear, `val % 2^n` already equals
`val % 2^(n+1)`. -/
lemma mod_pow_succ_clear (val n : Nat) (h : val.testBit n = false) :
    val % 2 ^ n = val % 2 ^ (n + 1) := by
  apply Nat.eq_of_testBit_eq
  intro i
  rw [Nat.testBit_mod_two_pow, Nat.testBit_mod_two_pow]
  rcases Nat.lt_trichotomy i n with hi | hi | hi
  · simp [hi, show i < n + 1 by omega]
  · subst hi; simp [h]
  · simp [show ¬i < n by omega, show ¬i < n + 1 by omega]

/-- The `getValue` loop under the all-ones mask: after `n ≤ 32` steps the
count is `n`, the packed value is `val` reduced mod `2^n` (identity
compaction), and the recorded positions are exactly the set bits of
`changed` below `n`, in increasing order. -/
lemma foldl_getValueStep_mask32 (val changed : Nat) :
    ∀ n, n ≤ 32 →
      (List.range n).foldl (getValueStep mask32 val changed) (0, 0, []) =
        (n, val % 2 ^ n, (List.range n).filter (fun i => changed.testBit i)) := by
  intro n
  induction n with
  | zero => intro _; simp [Nat.mod_one]
  | succ n ih =>
    intro hn
    rw [List.range_succ, List.foldl_append, ih (Nat.le_of_succ_le hn)]
    show List.foldl (getValueStep mask32 val changed) _ [n] = _
    simp only [List.foldl_cons, List.foldl_nil]
    unfold getValueStep
    have hm : ((1 <<< n) &&& mask32 != 0) = true := by
      rw [shiftLeft_and_bne]
      have h32 : mask32 = 2 ^ 32 - 1 := by decide
      rw [h32, Nat.testBit_two_pow_sub_one]
      simp only [decide_eq_true_eq]
      omega
    simp only [hm, if_true]
    rw [shiftLeft_and_bne, shiftLeft_and_bne]
    refine Prod.ext rfl (Prod.ext ?_ ?_)
    · show (if val.testBit n then (val % 2 ^ n) ||| (1 <<< n) else val % 2 ^ n) = _
      cases hv : val.testBit n with
      | true => simpa using mod_pow_succ_lor val n hv
      | false => simpa using mod_pow_succ_clear val n hv
    · show (if changed.testBit n then _ ++ [n] else _) = _
      rw [List.filter_append]
      cases hc : changed.testBit n <;> simp [hc]

/-- `getValue` under the all-ones mask (the catch-all call): the packed
value is the 32-bit reduction of `val`, and the ignore list enumerates
exactly the set bits of `changed` below 32, offset by `pos*32`. -/
lemma getValue_mask32 (md : memDisplay) (desc : String) (v changed : Nat)
    (add_il : Bool) :
    md.getValue desc mask32 v changed add_il =
      if add_il then
        " " ++ desc ++ "(" ++ " ".intercalate
            (((List.range 32).filter (fun i => changed.testBit i)).map
              (fun i => decStr (md.pos * 32 + i))) ++ ")=" ++ hexStr (v % 4294967296)
      else " " ++ desc ++ "=" ++ hexStr (v % 4294967296) := by
  unfold memDisplay.getValue
  rw [foldl_getValueStep_mask32 v changed 32 (le_refl 32)]
  norm_num

/-- A number whose set bits all sit below position 32 is below `2^32`. -/
lemma lt_two_pow_32_of_testBit_imp (un changed : Nat) (hc : changed < 2 ^ 32)
    (himp : ∀ i, un.testBit i = true → changed.testBit i = true) :
    un < 2 ^ 32 := by
  have hun : un = un % 2 ^ 32 := by
    apply Nat.eq_of_testBit_eq
    intro i
    rw [Nat.testBit_mod_two_pow]
    by_cases hi : i < 32
    · simp [hi]
    · have hcf : changed.testBit i = false := by
        apply Nat.testBit_eq_false_of_lt
        calc changed < 2 ^ 32 := hc
        _ ≤ 2 ^ i := Nat.pow_le_pow_right (by omega) (by omega)
      have : un.testBit i = false := by
        cases h : un.testBit i with
        | false => rfl
        | true => rw [himp i h] at hcf; exact absurd hcf (by simp)
      simp [hi, this]
  rw [hun]
  exact Nat.mod_lt un (by positivity)

/-- C6: after the table-order fragments, exactly one `"?"`-labeled
fragment is appended when unnamed changed bits remain, built with the
all-ones (32-bit) mask over `val &&& unnamed` and the unnamed set as its
changed set; no such fragment is appended otherwise; the unnamed set
holds exactly the changed bits not covered by any declared field; the
catch-all fragment's ignore list enumerates exactly those bits (offset by
`pos*32`) and its value is `val &&& unnamed` reduced to 32 bits — the
reduction being the identity whenever the changed mask is a 32-bit
value. -/
theorem C6_unnamed_catch_all (md : memDisplay) (val changed : Nat) (nf : Bool) :
    (md.displayFrags val changed nf).1 =
      (md.tableFrags val changed nf md.bitdefs changed).1 ++
        (if (md.tableFrags val changed nf md.bitdefs changed).2 != 0 then
          [md.getValue "?" mask32
            (val &&& (md.tableFrags val changed nf md.bitdefs changed).2)
            (md.tableFrags val changed nf md.bitdefs changed).2 nf]
        else []) ∧
    (∀ i, ((md.tableFrags val changed nf md.bitdefs changed).2).testBit i =
      (changed.testBit i && !md.bitdefs.any (fun bd => bd.1.testBit i))) ∧
    md.getValue "?" mask32 (val &&& (md.tableFrags val changed nf md.bitdefs changed).2)
        (md.tableFrags val changed nf md.bitdefs changed).2 nf =
      (if nf then
        " " ++ "?" ++ "(" ++ " ".intercalate
            (((List.range 32).filter
                (fun i => ((md.tableFrags val changed nf md.bitdefs changed).2).testBit i)).map
              (fun i => decStr (md.pos * 32 + i))) ++ ")=" ++
          hexStr ((val &&& (md.tableFrags val changed nf md.bitdefs changed).2) % 4294967296)
      else " " ++ "?" ++ "=" ++
          hexStr ((val &&& (md.tableFrags val changed nf md.bitdefs changed).2) % 4294967296)) ∧
    (changed < 4294967296 →
      (val &&& (md.tableFrags val changed nf md.bitdefs changed).2) % 4294967296 =
        val &&& (md.tableFrags val changed nf md.bitdefs changed).2) := by
  refine ⟨?_, ?_, ?_, ?_⟩
  · by_cases h : ((md.tableFrags val changed nf md.bitdefs changed).2 != 0) = true
    · simp [memDisplay.displayFrags, h]
    · have h0 : ((md.tableFrags val changed nf md.bitdefs changed).2 != 0) = false := by
        simpa using h
      simp [memDisplay.displayFrags, h0]
  · intro i
    rw [tableFrags_snd_testBit]
    cases hc : changed.testBit i with
    | false => simp
    | true => rw [all_clause_eq_not_any changed i hc]
  · exact getValue_mask32 md "?"
      (val &&& (md.tableFrags val changed nf md.bitdefs changed).2)
      (md.tableFrags val changed nf md.bitdefs changed).2 nf
  · intro hc
    apply Nat.mod_eq_of_lt
    have hun : (md.tableFrags val changed nf md.bitdefs changed).2 < 2 ^ 32 := by
      apply lt_two_pow_32_of_testBit_imp _ changed (by norm_num at hc ⊢; exact hc)
      intro i hi
      rw [tableFrags_snd_testBit] at hi
      exact (Bool.and_eq_true _ _ |>.mp hi).1
    calc val &&& (md.tableFrags val changed nf md.bitdefs changed).2
        ≤ (md.tableFrags val changed nf md.bitdefs changed).2 := Nat.and_le_right
      _ < 2 ^ 32 := hun
      _ = 4294967296 := by norm_num

/-- C6 witness: the exact-restriction clause applied to a concrete
one-field descriptor with `val = changed = 3`, whose unnamed set is bit 1. -/
theorem C6_unnamed_catch_all_witness :
    ((3 : Nat) &&&
        (memDisplay.tableFrags { type := "", pos := 0, name := "C", bitdefs := [(1, "EN")] }
          3 3 true [(1, "EN")] 3).2) % 4294967296 =
      (3 : Nat) &&&
        (memDisplay.tableFrags { type := "", pos := 0, name := "C", bitdefs := [(1, "EN")] }
          3 3 true [(1, "EN")] 3).2 :=
  (C6_unnamed_catch_all { type := "", pos := 0, name := "C", bitdefs := [(1, "EN")] }
    3 3 true).2.2.2 (by decide)

/-- C2 counterexample: from the initial state, a detect line selecting the
`M` entry of `cat0` followed by a begin-tracing line leaves the selected
architecture registers equal to `archA`, not the empty/initial set. -/
theorem C2_counterexample :
    (procLines cat0 initState [Line.detect "M" "a" "d1", Line.begin "b1"]).archRegs
      = archA ∧ archA ≠ [] := by
  constructor
  · decide
  · decide

/-- C2 amended: a begin-tracing line resets only the clock state and the
watch registry; the selected architecture register set is preserved
unchanged (it is only replaced by detect lines). -/
theorem C2_begin_preserves_archRegs (cat : Catalog) (st : PState) (raw : String) :
    procline cat st (Line.begin raw) =
      ({ st with lastClock := 0, virtMap := [] }, [raw]) ∧
    (procline cat st (Line.begin raw)).1.archRegs = st.archRegs :=
  ⟨rfl, rfl⟩

/-- C7: a watch line echoes the raw line, leaves the clock and the
selected registers untouched, and keys the new entry by the virtual
address; the stored display strategy is built from the resolved
descriptor when the physical address is known, else from the synthetic
descriptor whose name is the virtual-address text with an empty bit-field
table. -/
theorem C7_watch_registration (cat : Catalog) (st : PState) (type : String)
    (pos : Nat) (vaddr : String) (paddr : Nat) (raw : String) :
    (procline cat st (Line.watch type pos vaddr paddr raw)).2 = [raw] ∧
    alookup vaddr (procline cat st (Line.watch type pos vaddr paddr raw)).1.virtMap =
      some (match alookup paddr st.archRegs with
            | some reginfo => memDisplay.make reginfo type pos
            | none => memDisplay.make (vaddr, []) type pos) ∧
    (procline cat st (Line.watch type pos vaddr paddr raw)).1.archRegs = st.archRegs ∧
    (procline cat st (Line.watch type pos vaddr paddr raw)).1.lastClock = st.lastClock := by
  refine ⟨rfl, ?_, rfl, rfl⟩
  simp [procline, alookup]

/-- C8: a detect line looks the machine name up in the catalog, falls
back to the `"ARCH:" ++ arch` key, then to the empty register set, and
echoes the raw line; concretely, with only `ARCH:armv5` in the catalog, a
`boardX/armv5` detect line selects the armv5 entry. -/
theorem C8_detect_fallback (cat : Catalog) (st : PState) (name arch raw : String) :
    procline cat st (Line.detect name arch raw) =
      ({ st with archRegs :=
          match alookup name cat with
          | some a => a
          | none => (alookup ("ARCH:" ++ arch) cat).getD [] }, [raw]) ∧
    (procLines [("ARCH:armv5", archA)] initState
      [Line.detect "boardX" "armv5" "d"]).archRegs = archA := by
  refine ⟨rfl, ?_⟩
  decide

/-- C9: a begin-tracing line zeroes the clock baseline, empties the watch
registry and echoes the raw line; consequently any memory-value line
processed next — in particular one whose address was watched before the
reset — is handled by the default formatter (clock rendering at baseline
0, a space, then the raw suffix). -/
theorem C9_begin_reset (cat : Catalog) (st : PState) (raw : String) (time : Nat)
    (clock : Option Nat) (va : String) (val changed : Nat) (suffix raw2 : String) :
    (procline cat st (Line.begin raw)).2 = [raw] ∧
    (procline cat st (Line.begin raw)).1.lastClock = 0 ∧
    (procline cat st (Line.begin raw)).1.virtMap = [] ∧
    procline cat (procline cat st (Line.begin raw)).1
        (Line.mem time clock va val changed suffix raw2) =
      ({ (procline cat st (Line.begin raw)).1 with lastClock := (getClock time clock 0).2 },
       [(getClock time clock 0).1 ++ " " ++ suffix]) := by
  refine ⟨rfl, rfl, rfl, ?_⟩
  simp [procline, alookup, defaultFunc]

/-- C10: registering the same virtual address twice (here with a detect
line in between, so the two watches may resolve against different
architecture register sets) leaves the registry entry for that address
equal to the strategy built from the later watch line, and a subsequent
memory-value line for that address is formatted by exactly that
strategy. -/
theorem C10_later_watch_wins (cat : Catalog) (st : PState)
    (t1 : String) (p1 pa1 : Nat) (raw1 : String)
    (name arch rawd : String)
    (t2 : String) (p2 pa2 : Nat) (raw2 : String)
    (va : String) (time : Nat) (clock : Option Nat) (val changed : Nat)
    (suffix raw3 : String) :
    alookup va
        (procline cat
          (procline cat (procline cat st (Line.watch t1 p1 va pa1 raw1)).1
            (Line.detect name arch rawd)).1
          (Line.watch t2 p2 va pa2 raw2)).1.virtMap =
      some (match alookup pa2
              (procline cat (procline cat st (Line.watch t1 p1 va pa1 raw1)).1
                (Line.detect name arch rawd)).1.archRegs with
            | some reginfo => memDisplay.make reginfo t2 p2
            | none => memDisplay.make (va, []) t2 p2) ∧
    (procline cat
        (procline cat
          (procline cat (procline cat st (Line.watch t1 p1 va pa1 raw1)).1
            (Line.detect name arch rawd)).1
          (Line.watch t2 p2 va pa2 raw2)).1
        (Line.mem time clock va val changed suffix raw3)).2 =
      [((match alookup pa2
              (procline cat (procline cat st (Line.watch t1 p1 va pa1 raw1)).1
                (Line.detect name arch rawd)).1.archRegs with
         | some reginfo => memDisplay.make reginfo t2 p2
         | none => memDisplay.make (va, []) t2 p2).displayFunc time clock val changed
          (procline cat
            (procline cat (procline cat st (Line.watch t1 p1 va pa1 raw1)).1
              (Line.detect name arch rawd)).1
            (Line.watch t2 p2 va pa2 raw2)).1.lastClock).1] := by
  constructor
  · simp [procline, alookup]
  · simp [procline, alookup]

end Memalias
